import Mathlib

/-!
A verification development for the cobble build-script generator.

The definitions below are a shallow embedding of `src/cobble/project.py`
(the `Project`/`Package` namespace layer) and `src/cobble/output.py` (the
product collector and Ninja-file emitter).  Python strings become `String`,
Python dicts (which iterate in insertion order) become association lists
with unique keys, Python `assert`/`raise` failures become `Except String`
errors carrying the message the Python code formats.  The external
collaborators that are not part of the embedded sources
(`cobble.ninja_syntax`'s textual writer, `cobble.target`'s evaluator) are
modelled at their interface boundary: the writer as a list of emitted
events, a target's evaluation result as the data it hands to
`write_ninja_files`.

All definitions are executable and written so that the kernel can evaluate
them on concrete inputs (structural recursion only; Python's `str.split`,
`sorted` and `os.path` primitives are re-implemented structurally rather
than through `String.splitOn`/`List.mergeSort`, which are well-founded
definitions that do not reduce definitionally).
-/

namespace Cobble

/-! ### Python string primitives -/

/-- Lexicographic comparison of character lists by code point: the order
Python uses to compare strings (`a <= b`). -/
def strLeAux : List Char → List Char → Bool
  | [], _ => true
  | _ :: _, [] => false
  | a :: as, b :: bs => if a.toNat = b.toNat then strLeAux as bs else decide (a.toNat < b.toNat)

/-- Python's string order `s <= t` (code-point lexicographic). -/
def strle (s t : String) : Prop := strLeAux s.toList t.toList = true

instance : DecidableRel strle := fun s t => inferInstanceAs (Decidable (_ = true))

theorem strLeAux_total (as bs : List Char) : strLeAux as bs = true ∨ strLeAux bs as = true := by
  induction as generalizing bs with
  | nil => left; rfl
  | cons a as ih =>
    cases bs with
    | nil => right; rfl
    | cons b bs =>
      by_cases hab : a.toNat = b.toNat
      · rcases ih bs with h | h
        · left; simpa [strLeAux, hab] using h
        · right; simpa [strLeAux, hab.symm] using h
      · rcases Nat.lt_or_ge a.toNat b.toNat with h | h
        · left; simp [strLeAux, hab, h]
        · have hba : b.toNat ≠ a.toNat := fun e => hab e.symm
          have hlt : b.toNat < a.toNat := by omega
          right; simp [strLeAux, hba, hlt]

theorem strLeAux_trans (as bs cs : List Char) (h1 : strLeAux as bs = true)
    (h2 : strLeAux bs cs = true) : strLeAux as cs = true := by
  induction as generalizing bs cs with
  | nil => rfl
  | cons a as ih =>
    cases bs with
    | nil => simp [strLeAux] at h1
    | cons b bs =>
      cases cs with
      | nil => simp [strLeAux] at h2
      | cons c cs =>
        by_cases hab : a.toNat = b.toNat <;> by_cases hbc : b.toNat = c.toNat
        · have hac : a.toNat = c.toNat := hab.trans hbc
          simp only [strLeAux, if_pos hab] at h1
          simp only [strLeAux, if_pos hbc] at h2
          simp only [strLeAux, if_pos hac]
          exact ih bs cs h1 h2
        · simp only [strLeAux, if_pos hab] at h1
          simp only [strLeAux, if_neg hbc, decide_eq_true_eq] at h2
          have hac : a.toNat ≠ c.toNat := by omega
          have hlt : a.toNat < c.toNat := by omega
          simp [strLeAux, hac, hlt]
        · simp only [strLeAux, if_neg hab, decide_eq_true_eq] at h1
          simp only [strLeAux, if_pos hbc] at h2
          have hac : a.toNat ≠ c.toNat := by omega
          have : a.toNat < c.toNat := by omega
          simp [strLeAux, hac, this]
        · simp only [strLeAux, if_neg hab, decide_eq_true_eq] at h1
          simp only [strLeAux, if_neg hbc, decide_eq_true_eq] at h2
          have hac : a.toNat ≠ c.toNat := by omega
          have : a.toNat < c.toNat := by omega
          simp [strLeAux, hac, this]

instance : IsTotal String strle := ⟨fun s t => strLeAux_total s.toList t.toList⟩

instance : IsTrans String strle := ⟨fun s t u => strLeAux_trans s.toList t.toList u.toList⟩

/-- Ordering string-keyed pairs by their key: the comparison behind Python's
`sorted(d.items(), key = lambda kv: kv[0])`. -/
def fstle {α : Type} (a b : String × α) : Prop := strle a.1 b.1

instance {α : Type} : DecidableRel (@fstle α) := fun a b => inferInstanceAs (Decidable (strle a.1 b.1))

instance {α : Type} : IsTotal (String × α) fstle := ⟨fun a b => strLeAux_total a.1.toList b.1.toList⟩

instance {α : Type} : IsTrans (String × α) fstle :=
  ⟨fun a b c => strLeAux_trans a.1.toList b.1.toList c.1.toList⟩

/-- Python's `sorted` on strings.  Both Python's sort and
`List.insertionSort` are stable, so they compute the same list. -/
def pySorted (l : List String) : List String := List.insertionSort strle l

/-- Splitting a character list at every occurrence of the character `c`:
Python's `s.split(c)` for a one-character separator. -/
def splitCharAux (c : Char) : List Char → List (List Char)
  | [] => [[]]
  | x :: xs =>
    if x = c then [] :: splitCharAux c xs
    else
      match splitCharAux c xs with
      | [] => [[x]]
      | h :: t => (x :: h) :: t

/-- Python's `s.split(c)` for a one-character separator `c`. -/
def pySplitChar (c : Char) (s : String) : List String :=
  (splitCharAux c s.toList).map List.asString

/-- Splitting at every non-overlapping occurrence of `"//"`, scanning left
to right: Python's `s.split('//')`. -/
def splitSlash2 : List Char → List (List Char)
  | [] => [[]]
  | [x] => [[x]]
  | x :: y :: rest =>
    if x = '/' && y = '/' then [] :: splitSlash2 rest
    else
      match splitSlash2 (y :: rest) with
      | [] => [[x]]
      | h :: t => (x :: h) :: t

/-- Python's `s.split('//')`. -/
def pySplitSS (s : String) : List String := (splitSlash2 s.toList).map List.asString

/-- Python's `'//' in s`: splitting yields more than one part exactly when
the separator occurs. -/
def containsSS (s : String) : Bool := (pySplitSS s).length != 1

/-- Python's `s.count(c)` for a single character. -/
def pyCount (c : Char) (s : String) : Nat := s.toList.count c

/-- Python's `s.startswith(c)` for a one-character prefix. -/
def startsWithChar (c : Char) (s : String) : Bool :=
  match s.toList with
  | [] => false
  | x :: _ => x = c

/-- Python's `s.startswith('//')`. -/
def startsWithSS (s : String) : Bool :=
  match s.toList with
  | x :: y :: _ => x = '/' && y = '/'
  | _ => false

/-- Whether a string ends with the path separator. -/
def endsWithSlash (s : String) : Bool :=
  match s.toList.getLast? with
  | some x => x = '/'
  | none => false

/-- `os.path.join(base, *parts)` on a POSIX system: an absolute component
restarts the path, otherwise a separator is inserted unless one is already
present. -/
def pyJoin (base : String) (parts : List String) : String :=
  parts.foldl
    (fun acc b =>
      if startsWithChar '/' b then b
      else if acc = "" || endsWithSlash acc then acc ++ b
      else acc ++ "/" ++ b)
    base

/-- `os.path.basename` on a POSIX system: everything after the last slash. -/
def basename (s : String) : String := (pySplitChar '/' s).getLastD ""

/-- Python's `repr` of a plain string (no quotes or escapes inside), as
`%r` formats the identifiers appearing in error messages. -/
def pyQuote (s : String) : String := "\x27" ++ s ++ "\x27"

/-- `sep.join(parts)`. -/
def joinWith (sep : String) : List String → String
  | [] => ""
  | [x] => x
  | x :: y :: t => x ++ sep ++ joinWith sep (y :: t)

/-- Lookup in an association list with unique keys: the model of Python's
`d[k]` / `d.get(k)` for insertion-ordered dicts. -/
def lookupBy {κ α : Type} [BEq κ] (l : List (κ × α)) (k : κ) : Option α :=
  (l.find? (fun kv => kv.1 == k)).map Prod.snd

/-! ### Data model

The rule dicts and build ("ninja") dicts the generator manipulates.  A rule
dict (`Project.ninja_rules` values) holds the attributes of Ninja's rule
syntax that the repository uses; a build dict is what `Product.ninja_dicts`
yields and `Writer.build(**d)` consumes — `output.py` itself inspects only
its `outputs` entry.  Both are value objects compared field for field, as
Python compares dicts. -/

structure NinjaRule where
  command : String
  description : Option String := none
  depfile : Option String := none
  deps : Option String := none
deriving DecidableEq

structure NinjaDict where
  outputs : List String
  rule : String
  inputs : List String := []
  implicit : List String := []
  order_only : List String := []
  vars : List (String × String) := []
deriving DecidableEq

/-- The interface `output.py` uses of a `cobble.target.Product`: its list of
ninja build dicts. -/
structure Product where
  ninja_dicts : List NinjaDict
deriving DecidableEq

/-- One entry of the `product_map` returned by `concrete_target.evaluate`:
the owning target's identifier, the environment digest of the evaluation
(`none` standing for Python's `None`, printed as `top`), and the products
produced there.  `cobble.target`'s evaluator is external to the embedded
sources; its result is modelled as data carried by the target. -/
structure EvalEntry where
  ident : String
  digest : Option String
  prods : List Product
deriving DecidableEq

/-- The interface the embedded sources use of a `cobble.target.Target`. -/
structure Target where
  name : String
  ident : String
  concrete : Bool
  evalEntries : List EvalEntry
deriving DecidableEq

/-- A `Package` (project back-pointer omitted; the owning project is passed
explicitly where the Python methods use `self.project`).  `targets` is the
insertion-ordered dict from target name to target. -/
structure Package where
  relpath : String
  targets : List (String × Target)
deriving DecidableEq

/-- A `Project`: paths, alias, subprojects (insertion-ordered, keyed in
Python by their own alias), packages keyed by relative path, and the
registered ninja rules keyed by rule name.  The field Python names `alias`
is called `palias` here because `alias` is a Lean keyword.  (`named_envs`
is not modelled: no embedded claim touches it.) -/
inductive Project where
  | mk (root build_dir palias : String)
      (subprojects : List Project)
      (packages : List (String × Package))
      (ninja_rules : List (String × NinjaRule)) : Project

def Project.root : Project → String
  | .mk r _ _ _ _ _ => r

def Project.build_dir : Project → String
  | .mk _ b _ _ _ _ => b

def Project.palias : Project → String
  | .mk _ _ a _ _ _ => a

def Project.subprojects : Project → List Project
  | .mk _ _ _ s _ _ => s

def Project.packages : Project → List (String × Package)
  | .mk _ _ _ _ p _ => p

def Project.ninja_rules : Project → List (String × NinjaRule)
  | .mk _ _ _ _ _ r => r

/-! ### Project construction and registration (`project.py`) -/

/-- The rule `Project.__init__` pre-registers. -/
def symlinkRule : NinjaRule :=
  { command := "ln -sf $target $out", description := some "SYMLINK $out" }

/-- `Project(root, build_dir, alias)`: empty registries except for the
always-present `cobble_symlink_product` rule. -/
def Project.init (root build_dir palias : String) : Project :=
  .mk root build_dir palias [] [] [("cobble_symlink_product", symlinkRule)]

/-- `Project.add_subproject`: asserts the alias is not yet registered, then
inserts the subproject. -/
def Project.add_subproject (p : Project) (sub : Project) : Except String Project :=
  match p with
  | .mk r b a subs pkgs rules =>
    if (subs.find? (fun q => q.palias == sub.palias)).isSome then
      .error ("Duplicate subproject " ++ pyQuote sub.palias)
    else
      .ok (.mk r b a (subs ++ [sub]) pkgs rules)

/-- `Project.add_package`: asserts the relative path is not yet registered,
then inserts the package.  (The `package.project is self` assertion has no
counterpart here: the embedded `Package` keeps no project pointer.) -/
def Project.add_package (p : Project) (pkg : Package) : Except String Project :=
  match p with
  | .mk r b a subs pkgs rules =>
    if (lookupBy pkgs pkg.relpath).isSome then
      .error ("duplicate package at " ++ pkg.relpath)
    else
      .ok (.mk r b a subs (pkgs ++ [(pkg.relpath, pkg)]) rules)

/-- One step of `Project.add_ninja_rules`: a known name must carry an
identical definition (then nothing changes), a new name is inserted. -/
def addNinjaRule (rules : List (String × NinjaRule)) (kv : String × NinjaRule) :
    Except String (List (String × NinjaRule)) :=
  match lookupBy rules kv.1 with
  | some v0 =>
    if v0 = kv.2 then .ok rules
    else .error ("ninja rule " ++ kv.1 ++ " defined incompatibly in multiple places")
  | none => .ok (rules ++ [kv])

/-- `Project.add_ninja_rules(rules)`: folds `addNinjaRule` over the new
rules in iteration order. -/
def Project.add_ninja_rules (p : Project) (new : List (String × NinjaRule)) :
    Except String Project :=
  match p with
  | .mk r b a subs pkgs rules =>
    (new.foldlM addNinjaRule rules).map (fun rules2 => .mk r b a subs pkgs rules2)

/- `Project.find_project(alias)`: the empty alias or the project's own
alias resolves to the project itself; otherwise each subproject is asked
recursively, in registration order, and the first hit wins. -/
mutual

/-- The node case of `Project.find_project`. -/
def Project.find_project (p : Project) (a : String) : Option Project :=
  match p with
  | .mk _ _ pa subs _ _ =>
    if a = "" || a = pa then some p
    else findProjectList subs a

def findProjectList : List Project → String → Option Project
  | [], _ => none
  | p :: ps, a =>
    match p.find_project a with
    | some q => some q
    | none => findProjectList ps a

end

/-- `Project.inpath(*parts)`. -/
def Project.inpath (p : Project) (parts : List String) : String :=
  pyJoin p.root parts

/-- `Project.files()`: `BUILD.conf` followed by each package's `BUILD`
file (`Package.inpath` joins the project root, the package path and the
file name). -/
def Project.files (p : Project) : List String :=
  p.inpath ["BUILD.conf"] :: p.packages.map (fun kv => p.inpath [kv.2.relpath, "BUILD"])

/-- `Project.targets()`: all targets of all packages, in registration
order. -/
def Project.targets (p : Project) : List Target :=
  p.packages.flatMap (fun kv => kv.2.targets.map Prod.snd)

/-- `Project.concrete_targets()`. -/
def Project.concrete_targets (p : Project) : List Target :=
  p.targets.filter (fun t => t.concrete)

/-- The tail of `Project.find_target` once a package path and target name
are in hand: unknown package and unknown target are fatal errors, with the
messages the Python asserts format. -/
def Project.lookupTarget (p : Project) (ident pkg_path target_name : String) :
    Except String Target :=
  match lookupBy p.packages pkg_path with
  | none => .error ("Reference to unknown package: " ++ pyQuote ident)
  | some pkg =>
    match lookupBy pkg.targets target_name with
    | none =>
      .error ("Target " ++ target_name ++ " not found in package "
        ++ p.palias ++ "//" ++ pkg_path)
    | some t => .ok t

/-- The colon-splitting part of `Project.find_target`: `pat` is the portion
of the identifier after `//`.  Zero colons defaults the target name to the
last path component, one colon is explicit, more is the fatal
too-many-colons error; `ident` is the identifier the error messages name. -/
def Project.resolveLocal (p : Project) (ident pat : String) : Except String Target :=
  let colons := pyCount ':' pat
  if colons = 0 then p.lookupTarget ident pat (basename pat)
  else if colons = 1 then
    match pySplitChar ':' pat with
    | [pkg_path, target_name] => p.lookupTarget ident pkg_path target_name
    | _ =>
      -- Unreachable: splitting a string holding exactly one colon at the
      -- colon yields exactly two parts.
      .error "ValueError: not enough values to unpack"
  else .error ("Too many colons in identifier: " ++ pyQuote ident)

/-- `Project.find_target(ident)`.  The identifier must contain `//`; its
one `alias, package_and_target` unpacking fails (Python `ValueError`) when
`//` occurs more than once.  A non-empty alias looks the project up and
recurses with `'//' + package_and_target`; that recursive identifier starts
with the separator, so re-splitting it yields an empty alias and the call
resolves locally in the found project (the inner defensive branches mirror
the impossible shapes). -/
def Project.find_target (p : Project) (ident : String) : Except String Target :=
  if containsSS ident = false then
    .error ("Expected absolute identifier: " ++ pyQuote ident)
  else
    match pySplitSS ident with
    | [al, pat] =>
      if al = "" then p.resolveLocal ident pat
      else
        match p.find_project al with
        | none => .error ("No project with alias " ++ pyQuote al)
        | some q =>
          match pySplitSS ("//" ++ pat) with
          | [a2, pat2] =>
            if a2 = "" then q.resolveLocal ("//" ++ pat) pat2
            else .error "unreachable: a leading separator splits off an empty alias"
          | _ => .error "ValueError: too many values to unpack"
    | _ => .error "ValueError: too many values to unpack"

/-- `Package.make_absolute(ident)`: a package-relative identifier (leading
`:`) is prefixed with the owning project's alias, `//` and the package
path; a root-relative one (leading `//`) with the alias; an already
absolute one passes through; anything else is a fatal error.  `proj` is
the package's owning project. -/
def Package.make_absolute (proj : Project) (pkg : Package) (ident : String) :
    Except String String :=
  if startsWithChar ':' ident then .ok (proj.palias ++ "//" ++ pkg.relpath ++ ident)
  else if startsWithSS ident then .ok (proj.palias ++ ident)
  else if containsSS ident then .ok ident
  else .error ("Unexpected ident: " ++ pyQuote ident)

/-- `Package.find_target(ident)`: a leading-colon identifier is rewritten
to the absolute form before resolution; anything else is resolved as
given.  `proj` is the package's owning project. -/
def Package.find_target (proj : Project) (pkg : Package) (ident : String) :
    Except String Target :=
  if startsWithChar ':' ident then
    proj.find_target (proj.palias ++ "//" ++ pkg.relpath ++ ident)
  else proj.find_target ident

/-! ### The project tree -/

/- The projects transitively reachable from `p`, in depth-first preorder:
the order in which `find_project` visits them. -/
mutual

def Project.dfsPre : Project → List Project
  | p@(.mk _ _ _ subs _ _) => p :: dfsPreList subs

def dfsPreList : List Project → List Project
  | [] => []
  | p :: ps => p.dfsPre ++ dfsPreList ps

end

theorem Project.sizeOf_lt_of_mem_subprojects {p q : Project}
    (h : q ∈ p.subprojects) : sizeOf q < sizeOf p := by
  match p with
  | .mk r b a subs pkgs rules =>
    have h1 : sizeOf q < sizeOf subs := List.sizeOf_lt_of_mem h
    simp only [mk.sizeOf_spec]
    omega

/-- Structural induction over the project tree: to prove `P` everywhere it
suffices to prove it at a node given it for every subproject. -/
theorem Project.strongInd (P : Project → Prop)
    (h : ∀ p : Project, (∀ q ∈ p.subprojects, P q) → P p) : ∀ p : Project, P p := by
  have key : ∀ n : Nat, ∀ p : Project, sizeOf p ≤ n → P p := by
    intro n
    induction n with
    | zero =>
      intro p hp
      exact absurd hp (by cases p; simp)
    | succ n ih =>
      intro p hp
      refine h p fun q hq => ih q ?_
      have := Project.sizeOf_lt_of_mem_subprojects hq
      omega
  exact fun p => key (sizeOf p) p le_rfl

/-! ### Build-file collection (`output.py`, `_get_project_files`) -/

/- `_get_subproject_files(p, acc)`: post-order walk that records each
project's `files()` under its alias, first visit winning. -/
mutual

def gsfAux : Project → List (String × List String) → List (String × List String)
  | p@(.mk _ _ pa subs _ _), acc =>
    let acc2 := gsfList subs acc
    if (lookupBy acc2 pa).isSome then acc2 else acc2 ++ [(pa, p.files)]

def gsfList : List Project → List (String × List String) → List (String × List String)
  | [], acc => acc
  | p :: ps, acc => gsfList ps (gsfAux p acc)

end

/-- `_get_project_files(project)`: every collected file list, flattened in
collection order and sorted. -/
def _get_project_files (p : Project) : List String :=
  List.insertionSort strle ((gsfAux p []).flatMap Prod.snd)

/-! ### Product collection (`write_ninja_files`, first pass)

Products are keyed by `frozenset(ninja_dict['outputs'])`.  A finite set of
strings is modelled by its canonical form: the sorted deduplication of the
output list, so two output lists carry the same key exactly when they name
the same set of paths. -/

/-- The output-key of a build dict: its set of output paths, in canonical
(sorted, duplicate-free) form — the model of
`frozenset(ninja_dict['outputs'])`. -/
def outputKey (d : NinjaDict) : List String :=
  List.insertionSort strle d.outputs.dedup

/-- The conflict message `"Conflicting rules produce outputs %r" %
output_key`.  The `repr` of a frozenset lists its elements in an
unspecified order; it is modelled as the canonical listing.  The message is
a function of the output-key alone. -/
def conflictMsg (key : List String) : String :=
  "Conflicting rules produce outputs " ++ joinWith ", " key

/-- The global registry `unique_products_by_output`: output-key to the
first build dict registered under it. -/
abbrev Registry := List (List String × NinjaDict)

/-- One iteration of the collection loop: look the dict's output-key up;
a previously registered dict must be identical (the duplicate is dropped),
else the conflict assert fires; a fresh key registers the dict and appends
it to the flat list being collected. -/
def registerDict (st : Registry × List NinjaDict) (d : NinjaDict) :
    Except String (Registry × List NinjaDict) :=
  let key := outputKey d
  match lookupBy st.1 key with
  | some prev => if prev = d then .ok st else .error (conflictMsg key)
  | none => .ok (st.1 ++ [(key, d)], st.2 ++ [d])

/-- The collection loop over the flattened ninja dicts of one
`(target, env)` entry, starting from `flat = []`. -/
def collectDicts (reg : Registry) (ds : List NinjaDict) :
    Except String (Registry × List NinjaDict) :=
  ds.foldlM registerDict (reg, [])

/-- `unique_products_by_target`: target identifier to (environment digest
to collected dicts), both insertion-ordered. -/
abbrev UPBT := List (String × List (String × List NinjaDict))

/-- `unique_products_by_target[ti][ed] = flat`: Python dict assignment —
an existing key keeps its position and gets the new value, a new key is
appended. -/
def upbtSet (u : UPBT) (ti ed : String) (flat : List NinjaDict) : UPBT :=
  match lookupBy u ti with
  | none => u ++ [(ti, [(ed, flat)])]
  | some emap =>
    let emap2 :=
      match lookupBy emap ed with
      | none => emap ++ [(ed, flat)]
      | some _ => emap.map (fun kv => if kv.1 == ed then (ed, flat) else kv)
    u.map (fun kv => if kv.1 == ti then (ti, emap2) else kv)

/-- Processing one `product_map` entry: collect its dicts through the
global registry, then record the flat list under
`(target identifier, digest)` — `'top'` for a `None` environment — when it
is non-empty.  (`environments_by_digest` is only read by the
`dump_environments` diagnostic mode, which is off by default and not
modelled.) -/
def processEntry (st : Registry × UPBT) (e : EvalEntry) :
    Except String (Registry × UPBT) :=
  match collectDicts st.1 (e.prods.flatMap Product.ninja_dicts) with
  | .error msg => .error msg
  | .ok (reg2, flat) =>
    if flat.isEmpty then .ok (reg2, st.2)
    else .ok (reg2, upbtSet st.2 e.ident (e.digest.getD "top") flat)

/-- The first product pass: every concrete target's `product_map` entries,
in order, threaded through one registry. -/
def pass1 (ts : List Target) : Except String UPBT :=
  (ts.foldlM (fun st (t : Target) => t.evalEntries.foldlM processEntry st)
      (([], []) : Registry × UPBT)).map Prod.snd

/-! ### Emission (`write_ninja_files`, second pass)

`cobble.ninja_syntax.Writer` renders text; it is out of the embedded
sources' scope and is modelled at its interface: the sequence of
`comment` / `newline` / `rule` / `build` calls the generator makes. -/

inductive NinjaEvent where
  | comment (text : String)
  | newline
  | rule (name : String) (r : NinjaRule)
  | build (d : NinjaDict)
deriving DecidableEq

/-- The self-regeneration rule. -/
def regenRule (p : Project) : NinjaRule :=
  { command := "./cobble init --reinit " ++ p.root,
    description := some "(cobbling something together)" }

/-- The self-regeneration build step: output `build.ninja`, implicit
inputs all collected build files. -/
def regenBuild (p : Project) : NinjaDict :=
  { outputs := ["build.ninja"], rule := "cobble_generate_ninja",
    implicit := _get_project_files p }

/-- Everything written before the registered rules: the header comments,
the regeneration rule and its build step. -/
def preludeEvents (p : Project) : List NinjaEvent :=
  [ .comment "Generated using 'cobble init', do NOT edit by hand",
    .comment ("project_path=" ++ p.root),
    .newline,
    .comment "Automatic regeneration",
    .rule "cobble_generate_ninja" (regenRule p),
    .build (regenBuild p),
    .newline ]

/-- The registered rules, sorted alphabetically by name, each followed by
a blank line. -/
def rulesEvents (p : Project) : List NinjaEvent :=
  (List.insertionSort fstle p.ninja_rules).flatMap (fun kv => [.rule kv.1 kv.2, .newline])

/-- One target's product groups: a target appearing under a single digest
is annotated with its identifier only, one under several digests gets a
per-digest annotation; digests are emitted in sorted order. -/
def groupEvents (ti : String) (emap : List (String × List NinjaDict)) : List NinjaEvent :=
  (if emap.length = 1 then [.comment ("---- target " ++ ti)] else [])
    ++ (List.insertionSort fstle emap).flatMap (fun kv =>
        (if 1 < emap.length then [.comment ("---- target " ++ ti ++ " @ " ++ kv.1)] else [])
          ++ kv.2.map .build ++ [.newline])

/-- The second product pass: groups sorted by target identifier, each
target's digests sorted within it. -/
def productsEvents (u : UPBT) : List NinjaEvent :=
  (List.insertionSort fstle u).flatMap (fun kv => groupEvents kv.1 kv.2)

/-- One run of `write_ninja_files` over the writer interface: the events
written to the temporary file, and the error of the run if it failed.
The header, regeneration step and rule section are written before the
product passes run; a conflict detected during the first pass therefore
aborts with exactly those events already written, while a successful run
appends the product groups. -/
def emitRun (p : Project) : List NinjaEvent × Option String :=
  match pass1 p.concrete_targets with
  | .error e => (preludeEvents p ++ rulesEvents p, some e)
  | .ok u => (preludeEvents p ++ rulesEvents p ++ productsEvents u, none)

/-- The build directory as the generator sees it: the contents (as written
event sequences) of the final `build.ninja` and of the temporary
`.build.ninja.tmp`, when each exists. -/
structure Disk where
  final : Option (List NinjaEvent)
  tmp : Option (List NinjaEvent)
deriving DecidableEq

/-- `write_ninja_files(project)` as a filesystem transition: the writer
opens (truncates) the temporary file and streams events into it; only
after `close()` succeeds is the temporary file renamed onto `build.ninja`.
A failed run leaves the previous final file untouched and the partial
temporary file behind, never renamed. -/
def write_ninja_files (p : Project) (d : Disk) : Disk :=
  match emitRun p with
  | (evts, none) => { final := some evts, tmp := none }
  | (evts, some _) => { final := d.final, tmp := some evts }

/-! ### Characterizations used by the claims -/

/-- Whether an event is a `build` statement. -/
def isBuildEvent : NinjaEvent → Bool
  | .build _ => true
  | _ => false

/-- The first `build` statement of an event sequence. -/
def firstBuild (evts : List NinjaEvent) : Option NinjaEvent :=
  evts.find? isBuildEvent

/-- Keep the first build dict observed for each output-key, dropping every
later dict whose key was already seen. -/
def dedupByKey : List NinjaDict → List (List String) → List NinjaDict
  | [], _ => []
  | d :: ds, seen =>
    if outputKey d ∈ seen then dedupByKey ds seen
    else d :: dedupByKey ds (seen ++ [outputKey d])

/-- A dict stream is conflict-free when any two dicts sharing an
output-key are field-for-field identical. -/
def conflictFree (ds : List NinjaDict) : Prop :=
  ∀ d1 ∈ ds, ∀ d2 ∈ ds, outputKey d1 = outputKey d2 → d1 = d2

/-- Whether `needle` is a prefix of the character list. -/
def isPrefixCharList : List Char → List Char → Bool
  | [], _ => true
  | _ :: _, [] => false
  | a :: as, b :: bs => a = b && isPrefixCharList as bs

/-- Whether `needle` occurs inside the character list. -/
def occursIn (needle : List Char) : List Char → Bool
  | [] => needle.isEmpty
  | x :: xs => isPrefixCharList needle (x :: xs) || occursIn needle xs

/-- Python's `needle in hay` on strings. -/
def strContains (hay needle : String) : Bool := occursIn needle.toList hay.toList

/- The projects transitively reachable from `p`, subproject trees first,
each node after its own subtree: the order in which
`_get_subproject_files` records file sets. -/
mutual

def postOrder : Project → List Project
  | p@(.mk _ _ _ subs _ _) => postOrderList subs ++ [p]

def postOrderList : List Project → List Project
  | [] => []
  | p :: ps => postOrder p ++ postOrderList ps

end

/-- The projects reachable through `Project.__init__`,
`add_subproject`, `add_package` and `add_ninja_rules`: every project state
the loader can construct. -/
inductive Built : Project → Prop where
  | init : ∀ root build_dir palias, Built (Project.init root build_dir palias)
  | addSubproject : ∀ p sub p2, Built p → p.add_subproject sub = .ok p2 → Built p2
  | addPackage : ∀ p pkg p2, Built p → p.add_package pkg = .ok p2 → Built p2
  | addRules : ∀ p new p2, Built p → p.add_ninja_rules new = .ok p2 → Built p2

/-! ### Concrete sample data

A small project tree used to instantiate hypotheses at concrete inputs:
a root project (alias `""`) holding package `a/b` with target `foo` and a
subproject `sub` holding package `x` with target `y`; a second, aliased
project used by the error-message examples. -/

def fooTarget : Target :=
  { name := "foo", ident := "//a/b:foo", concrete := false, evalEntries := [] }

def pkgAB : Package := { relpath := "a/b", targets := [("foo", fooTarget)] }

def yTarget : Target :=
  { name := "y", ident := "//x:y", concrete := false, evalEntries := [] }

def pkgX : Package := { relpath := "x", targets := [("y", yTarget)] }

def subProj : Project :=
  .mk "/r/sub" "/r/build" "sub" [] [("x", pkgX)]
    [("cobble_symlink_product", symlinkRule)]

def rootProj : Project :=
  .mk "/r" "/r/build" "" [subProj] [("a/b", pkgAB)]
    [("cobble_symlink_product", symlinkRule)]

def xTarget : Target :=
  { name := "x", ident := "proj//a:x", concrete := false, evalEntries := [] }

def pkgA : Package := { relpath := "a", targets := [("x", xTarget)] }

def aliasProj : Project :=
  .mk "/q" "/q/build" "proj" [] [("a", pkgA)]
    [("cobble_symlink_product", symlinkRule)]

/-- A build dict producing `foo.o` with rule `cc`. -/
def ccDict : NinjaDict := { outputs := ["foo.o"], rule := "cc", inputs := ["a.c"] }

/-- A dict with the same outputs as `ccDict` but a different rule. -/
def cxxDict : NinjaDict := { outputs := ["foo.o"], rule := "cxx", inputs := ["a.c"] }

/-- A third dict with the same outputs and yet another rule and inputs. -/
def rustDict : NinjaDict := { outputs := ["foo.o"], rule := "rustc", inputs := ["b.rs"] }

/-- A concrete target whose evaluation yields exactly the dict `d`. -/
def oneDictTarget (nm : String) (d : NinjaDict) : Target :=
  { name := nm, ident := "//p:" ++ nm, concrete := true,
    evalEntries := [{ ident := "//p:" ++ nm, digest := some "d0",
                      prods := [{ ninja_dicts := [d] }] }] }

/-- A project holding two concrete targets: one yields `ccDict`, the other
the given dict — conflicting whenever the dict differs from `ccDict` but
shares its outputs. -/
def twoStepProj (d : NinjaDict) : Project :=
  .mk "/r" "/r/build" "" []
    [("p", { relpath := "p",
             targets := [("t1", oneDictTarget "t1" ccDict),
                         ("t2", oneDictTarget "t2" d)] })]
    [("cobble_symlink_product", symlinkRule)]

/-! ## Supporting lemmas -/

theorem findProjectList_dfs (a : String) (ps : List Project)
    (IH : ∀ q ∈ ps, q.find_project a = q.dfsPre.find? (fun r => r.palias == a)) :
    findProjectList ps a = (dfsPreList ps).find? (fun r => r.palias == a) := by
  induction ps with
  | nil => rfl
  | cons p ps ih =>
    have hp := IH p (by simp)
    have hps := ih (fun q hq => IH q (by simp [hq]))
    simp only [findProjectList, dfsPreList, List.find?_append, ← hp, ← hps]
    cases p.find_project a <;> simp

/-- `find_project` with a non-empty alias returns the first project of the
depth-first preorder carrying that alias. -/
theorem find_project_dfs (a : String) (ha : a ≠ "") :
    ∀ p : Project, p.find_project a = p.dfsPre.find? (fun r => r.palias == a) := by
  refine Project.strongInd _ ?_
  intro p IH
  match p with
  | .mk r b pa subs pkgs rules =>
    by_cases hpa : a = pa
    · subst hpa
      simp [Project.find_project, Project.dfsPre, Project.palias,
        List.find?_cons_of_pos, ha]
    · have hne : ((Project.mk r b pa subs pkgs rules).palias == a) = false := by
        simp [Project.palias]
        exact fun e => hpa e.symm
      simp only [Project.find_project, Project.dfsPre]
      rw [List.find?_cons_of_neg _ (by simp [hne, Project.palias]; exact fun e => hpa e.symm)]
      have : (if a = "" || a = pa then some (Project.mk r b pa subs pkgs rules)
          else findProjectList subs a) = findProjectList subs a := by
        simp [ha, hpa]
      rw [this]
      exact findProjectList_dfs a subs (fun q hq => IH q hq)

theorem lookupBy_append_some {κ α : Type} [BEq κ] (l1 l2 : List (κ × α)) (k : κ) (v : α)
    (h : lookupBy l1 k = some v) : lookupBy (l1 ++ l2) k = some v := by
  unfold lookupBy at h ⊢
  cases hf : l1.find? (fun kv => kv.1 == k) with
  | none => rw [hf] at h; simp at h
  | some kv =>
    rw [hf] at h
    rw [List.find?_append, hf]
    simpa using h

theorem addNinjaRule_preserves (rules : List (String × NinjaRule)) (kv : String × NinjaRule)
    (rules2 : List (String × NinjaRule)) (h : addNinjaRule rules kv = .ok rules2) :
    ∀ k v, lookupBy rules k = some v → lookupBy rules2 k = some v := by
  cases hl : lookupBy rules kv.1 with
  | some v0 =>
    by_cases he : v0 = kv.2
    · simp only [addNinjaRule, hl, if_pos he] at h
      cases h
      exact fun k v hv => hv
    · simp only [addNinjaRule, hl, if_neg he] at h
      cases h
  | none =>
    simp only [addNinjaRule, hl] at h
    cases h
    exact fun k v hv => lookupBy_append_some rules [kv] k v hv

theorem foldl_addNinjaRule_preserves (new : List (String × NinjaRule)) :
    ∀ rules rules2, new.foldlM addNinjaRule rules = .ok rules2 →
    ∀ k v, lookupBy rules k = some v → lookupBy rules2 k = some v := by
  induction new with
  | nil =>
    intro rules rules2 h k v hv
    cases h
    exact hv
  | cons kv new ih =>
    intro rules rules2 h k v hv
    rw [List.foldlM_cons] at h
    cases ha : addNinjaRule rules kv with
    | error e =>
      rw [ha] at h
      exact Except.noConfusion h
    | ok r1 =>
      rw [ha] at h
      exact ih r1 rules2 h k v (addNinjaRule_preserves rules kv r1 ha k v hv)

theorem foldl_addNinjaRule_noop (new : List (String × NinjaRule)) :
    ∀ rules, (∀ kv ∈ new, lookupBy rules kv.1 = some kv.2) →
    new.foldlM addNinjaRule rules = .ok rules := by
  induction new with
  | nil => intro rules _; rfl
  | cons kv new ih =>
    intro rules hall
    have h1 : lookupBy rules kv.1 = some kv.2 := hall kv (by simp)
    have hstep : addNinjaRule rules kv = .ok rules := by
      simp [addNinjaRule, h1]
    rw [List.foldlM_cons, hstep]
    simpa using ih rules (fun kv2 hm => hall kv2 (by simp [hm]))

theorem foldl_addNinjaRule_conflict (new : List (String × NinjaRule)) :
    ∀ rules k v w, (k, v) ∈ new → lookupBy rules k = some w → v ≠ w →
    ∃ msg, new.foldlM addNinjaRule rules = .error msg := by
  induction new with
  | nil => intro _ _ _ _ h; cases h
  | cons kv new ih =>
    intro rules k v w hm hl hne
    rcases List.mem_cons.mp hm with he | hm2
    · subst he
      have hstep : addNinjaRule rules (k, v) = .error ("ninja rule " ++ k
          ++ " defined incompatibly in multiple places") := by
        simp only [addNinjaRule, hl, if_neg (fun e : w = v => hne e.symm)]
      exact ⟨_, by rw [List.foldlM_cons, hstep]; rfl⟩
    · cases ha : addNinjaRule rules kv with
      | error e => exact ⟨e, by rw [List.foldlM_cons, ha]; rfl⟩
      | ok r1 =>
        have hl1 : lookupBy r1 k = some w := addNinjaRule_preserves rules kv r1 ha k w hl
        rcases ih r1 k v w hm2 hl1 hne with ⟨msg, hmsg⟩
        exact ⟨msg, by rw [List.foldlM_cons, ha]; simpa using hmsg⟩

/-- Every project the loader can reach keeps the symlink rule registered
with its fixed definition. -/
theorem built_symlink_registered (p : Project) (h : Built p) :
    lookupBy p.ninja_rules "cobble_symlink_product" = some symlinkRule := by
  induction h with
  | init root bd a => rfl
  | addSubproject p sub p2 hb hok ih =>
    cases p with
    | mk r b a subs pkgs rules =>
      simp only [Project.add_subproject] at hok
      split at hok
      · cases hok
      · cases hok
        simpa [Project.ninja_rules] using ih
  | addPackage p pkg p2 hb hok ih =>
    cases p with
    | mk r b a subs pkgs rules =>
      simp only [Project.add_package] at hok
      split at hok
      · cases hok
      · cases hok
        simpa [Project.ninja_rules] using ih
  | addRules p new p2 hb hok ih =>
    cases p with
    | mk r b a subs pkgs rules =>
      simp only [Project.add_ninja_rules] at hok
      cases hf : new.foldlM addNinjaRule rules with
      | error e => rw [hf] at hok; cases hok
      | ok rules2 =>
        rw [hf] at hok
        cases hok
        simp only [Project.ninja_rules] at ih ⊢
        exact foldl_addNinjaRule_preserves new rules rules2 hf _ _ ih

theorem lookupBy_eq_some_iff {κ α : Type} [BEq κ] [LawfulBEq κ]
    (l : List (κ × α)) (k : κ) (v : α) (h : lookupBy l k = some v) :
    ∃ kv, kv ∈ l ∧ kv.1 = k ∧ kv.2 = v := by
  unfold lookupBy at h
  cases hf : l.find? (fun kv => kv.1 == k) with
  | none => rw [hf] at h; simp at h
  | some kv =>
    rw [hf] at h
    simp at h
    have hm := List.mem_of_find?_eq_some hf
    have hp := List.find?_some hf
    simp at hp
    exact ⟨kv, hm, hp, h⟩

theorem lookupBy_none_iff {κ α : Type} [BEq κ] [LawfulBEq κ]
    (l : List (κ × α)) (k : κ) :
    lookupBy l k = none ↔ k ∉ l.map Prod.fst := by
  unfold lookupBy
  constructor
  · intro h hk
    cases hf : l.find? (fun kv => kv.1 == k) with
    | none =>
      rw [List.find?_eq_none] at hf
      rcases List.mem_map.mp hk with ⟨kv, hm, he⟩
      exact hf kv hm (by simp [he])
    | some kv => rw [hf] at h; simp at h
  · intro hk
    cases hf : l.find? (fun kv => kv.1 == k) with
    | none => simp
    | some kv =>
      have hm := List.mem_of_find?_eq_some hf
      have hp := List.find?_some hf
      simp at hp
      exact absurd (List.mem_map.mpr ⟨kv, hm, hp⟩) hk

theorem lookupBy_append_right {κ α : Type} [BEq κ] (l1 l2 : List (κ × α)) (k : κ)
    (h : lookupBy l1 k = none) : lookupBy (l1 ++ l2) k = lookupBy l2 k := by
  unfold lookupBy at h ⊢
  rw [List.find?_append]
  cases hf : l1.find? (fun kv => kv.1 == k) with
  | none => simp
  | some kv => rw [hf] at h; simp at h

theorem lookupBy_singleton {κ α : Type} [BEq κ] [LawfulBEq κ] (k : κ) (v : α) :
    lookupBy [(k, v)] k = some v := by
  simp [lookupBy]

/-- Registry well-formedness: every entry's key is its dict's output-key.
Holds for every registry grown from the empty one. -/
def RegWF (reg : Registry) : Prop := ∀ kv ∈ reg, kv.1 = outputKey kv.2

/-- Success case of the collection fold: the initial registry's entries
survive unchanged, every processed dict ends up registered under its
output-key, and the flat list extends by exactly the first-per-key dicts
whose key the registry did not already hold. -/
theorem collect_go_ok (ds : List NinjaDict) :
    ∀ reg flat reg2 flat2,
    ds.foldlM registerDict (reg, flat) = .ok (reg2, flat2) →
    (∀ k v, lookupBy reg k = some v → lookupBy reg2 k = some v) ∧
    (∀ d ∈ ds, lookupBy reg2 (outputKey d) = some d) ∧
    flat2 = flat ++ dedupByKey ds (reg.map Prod.fst) := by
  induction ds with
  | nil =>
    intro reg flat reg2 flat2 h
    cases h
    exact ⟨fun k v hv => hv, by simp, by simp [dedupByKey]⟩
  | cons d ds ih =>
    intro reg flat reg2 flat2 h
    rw [List.foldlM_cons] at h
    cases hl : lookupBy reg (outputKey d) with
    | some prev =>
      by_cases he : prev = d
      · have hstep : registerDict (reg, flat) d = .ok (reg, flat) := by
          simp [registerDict, hl, he]
        rw [hstep] at h
        rcases ih reg flat reg2 flat2 h with ⟨b1, b2, b3⟩
        refine ⟨b1, ?_, ?_⟩
        · intro d2 hm
          rcases List.mem_cons.mp hm with rfl | hm2
          · exact (b1 _ _ hl).trans (by rw [he])
          · exact b2 d2 hm2
        · have hseen : outputKey d ∈ reg.map Prod.fst := by
            by_contra hk
            rw [← lookupBy_none_iff reg (outputKey d)] at hk
            rw [hk] at hl
            cases hl
          simpa [dedupByKey, hseen] using b3
      · have hstep : registerDict (reg, flat) d
            = .error (conflictMsg (outputKey d)) := by
          simp [registerDict, hl, he]
        rw [hstep] at h
        exact Except.noConfusion h
    | none =>
      have hstep : registerDict (reg, flat) d
          = .ok (reg ++ [(outputKey d, d)], flat ++ [d]) := by
        simp [registerDict, hl]
      rw [hstep] at h
      rcases ih _ _ reg2 flat2 h with ⟨b1, b2, b3⟩
      have hup : ∀ k v, lookupBy reg k = some v
          → lookupBy (reg ++ [(outputKey d, d)]) k = some v :=
        fun k v hv => lookupBy_append_some reg _ k v hv
      refine ⟨fun k v hv => b1 k v (hup k v hv), ?_, ?_⟩
      · intro d2 hm
        rcases List.mem_cons.mp hm with rfl | hm2
        · refine b1 _ _ ?_
          rw [lookupBy_append_right reg _ _ hl]
          exact lookupBy_singleton _ _
        · exact b2 d2 hm2
      · have hseen : outputKey d ∉ reg.map Prod.fst :=
          (lookupBy_none_iff reg (outputKey d)).mp hl
        simp only [dedupByKey, if_neg hseen]
        simp only [List.map_append, List.map_cons, List.map_nil] at b3 ⊢
        simp [b3]

/-- Error case of the collection fold: a failure is the conflict message of
some output-key carried by two different dicts, one of them in the stream,
the other either already registered under that key or also in the
stream. -/
theorem collect_go_error (ds : List NinjaDict) :
    ∀ reg flat msg, RegWF reg →
    ds.foldlM registerDict (reg, flat) = .error msg →
    ∃ k d1 d2, msg = conflictMsg k ∧ d2 ∈ ds ∧ outputKey d2 = k ∧ d1 ≠ d2 ∧
      outputKey d1 = k ∧ (lookupBy reg k = some d1 ∨ d1 ∈ ds) := by
  induction ds with
  | nil =>
    intro reg flat msg _ h
    cases h
  | cons d ds ih =>
    intro reg flat msg hwf h
    rw [List.foldlM_cons] at h
    cases hl : lookupBy reg (outputKey d) with
    | some prev =>
      by_cases he : prev = d
      · have hstep : registerDict (reg, flat) d = .ok (reg, flat) := by
          simp [registerDict, hl, he]
        rw [hstep] at h
        rcases ih reg flat msg hwf h with ⟨k, d1, d2, h1, h2, h3, h4, h5, h6⟩
        exact ⟨k, d1, d2, h1, by simp [h2], h3, h4, h5,
          h6.imp id (fun hm => by simp [hm])⟩
      · have hstep : registerDict (reg, flat) d
            = .error (conflictMsg (outputKey d)) := by
          simp [registerDict, hl, he]
        rw [hstep] at h
        have hmsg : msg = conflictMsg (outputKey d) := by
          cases h
          rfl
        have hk1 : outputKey prev = outputKey d := by
          rcases lookupBy_eq_some_iff reg (outputKey d) prev hl with ⟨kv, hm, hke, hve⟩
          have := hwf kv hm
          rw [hve] at this
          rw [← this, hke]
        exact ⟨outputKey d, prev, d, hmsg, by simp, rfl, he, hk1, Or.inl hl⟩
    | none =>
      have hstep : registerDict (reg, flat) d
          = .ok (reg ++ [(outputKey d, d)], flat ++ [d]) := by
        simp [registerDict, hl]
      rw [hstep] at h
      have hwf2 : RegWF (reg ++ [(outputKey d, d)]) := by
        intro kv hm
        rcases List.mem_append.mp hm with hm1 | hm2
        · exact hwf kv hm1
        · simp at hm2
          rw [hm2]
      rcases ih _ _ msg hwf2 h with ⟨k, d1, d2, h1, h2, h3, h4, h5, h6⟩
      refine ⟨k, d1, d2, h1, by simp [h2], h3, h4, h5, ?_⟩
      rcases h6 with h6 | h6
      · cases hl2 : lookupBy reg k with
        | some v =>
          left
          have hv := lookupBy_append_some reg [(outputKey d, d)] k v hl2
          exact hv.symm.trans h6
        | none =>
          rw [lookupBy_append_right reg _ k hl2, lookupBy] at h6
          by_cases hkk : (outputKey d) == k
          · simp [hkk] at h6
            right
            simp [← h6]
          · simp [List.find?, hkk] at h6
      · right
        simp [h6]

/-- Totality of the collection fold on conflict-free input: when the
stream is internally conflict-free and consistent with the incoming
registry, collection succeeds. -/
theorem collect_go_total (ds : List NinjaDict) :
    ∀ reg flat,
    (∀ k d0, lookupBy reg k = some d0 → ∀ d ∈ ds, outputKey d = k → d = d0) →
    conflictFree ds →
    ∃ res, ds.foldlM registerDict (reg, flat) = .ok res := by
  induction ds with
  | nil =>
    intro reg flat _ _
    exact ⟨(reg, flat), rfl⟩
  | cons d ds ih =>
    intro reg flat hcons hcf
    cases hl : lookupBy reg (outputKey d) with
    | some prev =>
      have he : d = prev := hcons _ prev hl d (by simp) rfl
      have hstep : registerDict (reg, flat) d = .ok (reg, flat) := by
        simp [registerDict, hl, ← he]
      rcases ih reg flat
          (fun k d0 hk d2 hm hk2 => hcons k d0 hk d2 (by simp [hm]) hk2)
          (fun d1 hm1 d2 hm2 hk => hcf d1 (by simp [hm1]) d2 (by simp [hm2]) hk)
          with ⟨res, hres⟩
      exact ⟨res, by rw [List.foldlM_cons, hstep]; exact hres⟩
    | none =>
      have hstep : registerDict (reg, flat) d
          = .ok (reg ++ [(outputKey d, d)], flat ++ [d]) := by
        simp [registerDict, hl]
      have hcons2 : ∀ k d0, lookupBy (reg ++ [(outputKey d, d)]) k = some d0 →
          ∀ d2 ∈ ds, outputKey d2 = k → d2 = d0 := by
        intro k d0 hk d2 hm hk2
        cases hl2 : lookupBy reg k with
        | some v =>
          have hv := lookupBy_append_some reg [(outputKey d, d)] k v hl2
          rw [hv] at hk
          injection hk with hke
          rw [← hke]
          exact hcons k v hl2 d2 (by simp [hm]) hk2
        | none =>
          rw [lookupBy_append_right reg _ k hl2, lookupBy] at hk
          by_cases hkk : (outputKey d) == k
          · simp [hkk] at hk
            have hke : outputKey d = k := by simpa using hkk
            rw [← hk]
            exact hcf d2 (by simp [hm]) d (by simp) (by rw [hk2, ← hke])
          · simp [List.find?, hkk] at hk
      rcases ih _ (flat ++ [d]) hcons2
          (fun d1 hm1 d2 hm2 hk => hcf d1 (by simp [hm1]) d2 (by simp [hm2]) hk)
          with ⟨res, hres⟩
      exact ⟨res, by rw [List.foldlM_cons, hstep]; exact hres⟩

/-- Keys emitted by `dedupByKey` are distinct and avoid the seen set. -/
theorem dedupByKey_keys (ds : List NinjaDict) :
    ∀ seen, ((dedupByKey ds seen).map outputKey).Nodup ∧
      ∀ k ∈ (dedupByKey ds seen).map outputKey, k ∉ seen := by
  induction ds with
  | nil => intro seen; simp [dedupByKey]
  | cons d ds ih =>
    intro seen
    by_cases hd : outputKey d ∈ seen
    · simp only [dedupByKey, if_pos hd]
      exact ih seen
    · simp only [dedupByKey, if_neg hd, List.map_cons, List.nodup_cons]
      rcases ih (seen ++ [outputKey d]) with ⟨ih1, ih2⟩
      refine ⟨⟨?_, ih1⟩, ?_⟩
      · intro hmem
        have := ih2 _ hmem
        simp at this
      · intro k hk
        simp only [List.mem_cons] at hk
        rcases hk with rfl | hk
        · exact hd
        · intro hks
          exact ih2 k hk (by simp [hks])

/-- The flat-list component of the collection fold is a suffix shift: the
registry evolution and failure behaviour do not depend on the flat list
collected so far. -/
theorem fold_flat_shift (ds : List NinjaDict) :
    ∀ reg flat0,
    ds.foldlM registerDict (reg, flat0)
      = (ds.foldlM registerDict (reg, [])).map (fun rf => (rf.1, flat0 ++ rf.2)) := by
  induction ds with
  | nil =>
    intro reg flat0
    show Except.ok (reg, flat0)
      = (Except.ok (reg, ([] : List NinjaDict))).map (fun rf => (rf.1, flat0 ++ rf.2))
    simp [Except.map]
  | cons d ds ih =>
    intro reg flat0
    rw [List.foldlM_cons, List.foldlM_cons]
    cases hl : lookupBy reg (outputKey d) with
    | some prev =>
      by_cases he : prev = d
      · have h1 : registerDict (reg, flat0) d = .ok (reg, flat0) := by
          simp [registerDict, hl, he]
        have h2 : registerDict (reg, []) d = .ok (reg, ([] : List NinjaDict)) := by
          simp [registerDict, hl, he]
        rw [h1, h2]
        exact ih reg flat0
      · have h1 : registerDict (reg, flat0) d = .error (conflictMsg (outputKey d)) := by
          simp [registerDict, hl, he]
        have h2 : registerDict (reg, []) d = .error (conflictMsg (outputKey d)) := by
          simp [registerDict, hl, he]
        rw [h1, h2]
        rfl
    | none =>
      have h1 : registerDict (reg, flat0) d = .ok (reg ++ [(outputKey d, d)], flat0 ++ [d]) := by
        simp [registerDict, hl]
      have h2 : registerDict (reg, []) d = .ok (reg ++ [(outputKey d, d)], [d]) := by
        simp [registerDict, hl]
      rw [h1, h2]
      show ds.foldlM registerDict (reg ++ [(outputKey d, d)], flat0 ++ [d])
        = (ds.foldlM registerDict (reg ++ [(outputKey d, d)], [d])).map
            (fun rf => (rf.1, flat0 ++ rf.2))
      rw [ih (reg ++ [(outputKey d, d)]) (flat0 ++ [d]),
        ih (reg ++ [(outputKey d, d)]) [d]]
      cases ds.foldlM registerDict (reg ++ [(outputKey d, d)], []) with
      | error e => rfl
      | ok rf => simp [Except.map]

/-- The dicts of one `product_map` entry, in observation order. -/
def entryDicts (e : EvalEntry) : List NinjaDict :=
  e.prods.flatMap Product.ninja_dicts

/-- The dicts of one concrete target's `product_map`, in observation
order. -/
def targetDicts (t : Target) : List NinjaDict :=
  t.evalEntries.flatMap entryDicts

/-- Every dict the first product pass observes, in observation order. -/
def allDicts (ts : List Target) : List NinjaDict :=
  ts.flatMap targetDicts

theorem entries_bridge (es : List EvalEntry) :
    ∀ st : Registry × UPBT,
    (∀ st2, es.foldlM processEntry st = .ok st2 →
      ∃ flat, (es.flatMap entryDicts).foldlM registerDict (st.1, ([] : List NinjaDict))
        = .ok (st2.1, flat)) ∧
    (∀ msg, es.foldlM processEntry st = .error msg →
      (es.flatMap entryDicts).foldlM registerDict (st.1, ([] : List NinjaDict))
        = .error msg) := by
  induction es with
  | nil =>
    intro st
    constructor
    · intro st2 h
      cases h
      exact ⟨[], rfl⟩
    · intro msg h
      cases h
  | cons e es ih =>
    intro st
    have happ := List.foldlM_append registerDict (st.1, ([] : List NinjaDict))
      (entryDicts e) (es.flatMap entryDicts)
    cases hc : collectDicts st.1 (entryDicts e) with
    | error msg0 =>
      have hpe : processEntry st e = .error msg0 := by
        simp [processEntry, entryDicts] at hc ⊢
        rw [hc]
      have hfold : (entryDicts e).foldlM registerDict (st.1, ([] : List NinjaDict))
          = .error msg0 := hc
      constructor
      · intro st2 h
        rw [List.foldlM_cons, hpe] at h
        cases h
      · intro msg h
        rw [List.foldlM_cons, hpe] at h
        have : msg0 = msg := by
          cases h
          rfl
        subst this
        simp only [List.flatMap_cons]
        rw [happ, hfold]
        rfl
    | ok rf =>
      rcases rf with ⟨reg2, flat⟩
      have hpe : ∃ u2, processEntry st e = .ok (reg2, u2) := by
        simp only [processEntry, entryDicts] at hc ⊢
        rw [hc]
        by_cases hfe : flat.isEmpty
        · exact ⟨st.2, by simp [hfe]⟩
        · exact ⟨upbtSet st.2 e.ident (e.digest.getD "top") flat, by simp [hfe]⟩
      rcases hpe with ⟨u2, hpe⟩
      have hfold : (entryDicts e).foldlM registerDict (st.1, ([] : List NinjaDict))
          = .ok (reg2, flat) := hc
      rcases ih (reg2, u2) with ⟨ih_ok, ih_err⟩
      constructor
      · intro st2 h
        rw [List.foldlM_cons, hpe] at h
        rcases ih_ok st2 h with ⟨flat2, hrest⟩
        refine ⟨flat ++ flat2, ?_⟩
        simp only [List.flatMap_cons]
        rw [happ, hfold]
        show (es.flatMap entryDicts).foldlM registerDict (reg2, flat) = _
        rw [fold_flat_shift _ reg2 flat]
        rw [hrest]
        rfl
      · intro msg h
        rw [List.foldlM_cons, hpe] at h
        have hrest := ih_err msg h
        simp only [List.flatMap_cons]
        rw [happ, hfold]
        show (es.flatMap entryDicts).foldlM registerDict (reg2, flat) = _
        rw [fold_flat_shift _ reg2 flat, hrest]
        rfl

theorem targets_bridge (ts : List Target) :
    ∀ st : Registry × UPBT,
    (∀ st2, ts.foldlM (fun st (t : Target) => t.evalEntries.foldlM processEntry st) st
        = .ok st2 →
      ∃ flat, (allDicts ts).foldlM registerDict (st.1, ([] : List NinjaDict))
        = .ok (st2.1, flat)) ∧
    (∀ msg, ts.foldlM (fun st (t : Target) => t.evalEntries.foldlM processEntry st) st
        = .error msg →
      (allDicts ts).foldlM registerDict (st.1, ([] : List NinjaDict))
        = .error msg) := by
  induction ts with
  | nil =>
    intro st
    constructor
    · intro st2 h
      cases h
      exact ⟨[], rfl⟩
    · intro msg h
      cases h
  | cons t ts ih =>
    intro st
    have happ := List.foldlM_append registerDict (st.1, ([] : List NinjaDict))
      (targetDicts t) (ts.flatMap targetDicts)
    rcases entries_bridge t.evalEntries st with ⟨eb_ok, eb_err⟩
    cases hres : t.evalEntries.foldlM processEntry st with
    | error msg0 =>
      have hfold : (targetDicts t).foldlM registerDict (st.1, ([] : List NinjaDict))
          = .error msg0 := eb_err msg0 hres
      constructor
      · intro st2 h
        rw [List.foldlM_cons, hres] at h
        cases h
      · intro msg h
        rw [List.foldlM_cons, hres] at h
        have : msg0 = msg := by cases h; rfl
        subst this
        show ((targetDicts t ++ ts.flatMap targetDicts).foldlM registerDict _) = _
        rw [happ]
        show ((targetDicts t).foldlM registerDict _ >>= _) = _
        rw [hfold]
        rfl
    | ok st1 =>
      rcases eb_ok st1 hres with ⟨flat, hfold0⟩
      have hfold : (targetDicts t).foldlM registerDict (st.1, ([] : List NinjaDict))
          = .ok (st1.1, flat) := hfold0
      rcases ih st1 with ⟨ih_ok, ih_err⟩
      constructor
      · intro st2 h
        rw [List.foldlM_cons, hres] at h
        rcases ih_ok st2 h with ⟨flat2, hrest0⟩
        have hrest : (ts.flatMap targetDicts).foldlM registerDict
            (st1.1, ([] : List NinjaDict)) = .ok (st2.1, flat2) := hrest0
        refine ⟨flat ++ flat2, ?_⟩
        show ((targetDicts t ++ ts.flatMap targetDicts).foldlM registerDict _) = _
        rw [happ]
        show ((targetDicts t).foldlM registerDict _ >>= _) = _
        rw [hfold]
        show (ts.flatMap targetDicts).foldlM registerDict (st1.1, flat) = _
        rw [fold_flat_shift _ st1.1 flat, hrest]
        rfl
      · intro msg h
        rw [List.foldlM_cons, hres] at h
        have hrest : (ts.flatMap targetDicts).foldlM registerDict
            (st1.1, ([] : List NinjaDict)) = .error msg := ih_err msg h
        show ((targetDicts t ++ ts.flatMap targetDicts).foldlM registerDict _) = _
        rw [happ]
        show ((targetDicts t).foldlM registerDict _ >>= _) = _
        rw [hfold]
        show (ts.flatMap targetDicts).foldlM registerDict (st1.1, flat) = _
        rw [fold_flat_shift _ st1.1 flat, hrest]
        rfl

theorem postOrderList_perm (ps : List Project)
    (IH : ∀ q ∈ ps, (postOrder q).Perm q.dfsPre) :
    (postOrderList ps).Perm (dfsPreList ps) := by
  induction ps with
  | nil => rfl
  | cons p ps ih =>
    show (postOrder p ++ postOrderList ps).Perm (p.dfsPre ++ dfsPreList ps)
    exact (IH p (by simp)).append (ih (fun q hq => IH q (by simp [hq])))

/-- The post-order enumeration of the project tree is a permutation of the
depth-first preorder. -/
theorem postOrder_perm_dfsPre : ∀ p : Project, (postOrder p).Perm p.dfsPre := by
  refine Project.strongInd _ ?_
  intro p IH
  match p with
  | .mk r b pa subs pkgs rules =>
    show (postOrderList subs ++ [Project.mk r b pa subs pkgs rules]).Perm
      (Project.mk r b pa subs pkgs rules :: dfsPreList subs)
    have h1 : (postOrderList subs ++ [Project.mk r b pa subs pkgs rules]).Perm
        ([Project.mk r b pa subs pkgs rules] ++ postOrderList subs) := List.perm_append_comm
    have h2 : ([Project.mk r b pa subs pkgs rules] ++ postOrderList subs).Perm
        ([Project.mk r b pa subs pkgs rules] ++ dfsPreList subs) :=
      List.Perm.append_left _ (postOrderList_perm subs (fun q hq => IH q hq))
    exact h1.trans h2

theorem lookupBy_append_none {κ α : Type} [BEq κ] (l1 l2 : List (κ × α)) (k : κ)
    (h1 : lookupBy l1 k = none) (h2 : lookupBy l2 k = none) :
    lookupBy (l1 ++ l2) k = none := by
  rw [lookupBy_append_right l1 l2 k h1]
  exact h2

theorem gsfList_eq (ps : List Project)
    (IH : ∀ q ∈ ps, ∀ acc : List (String × List String),
      (∀ a ∈ (q.dfsPre).map Project.palias, lookupBy acc a = none) →
      ((q.dfsPre).map Project.palias).Nodup →
      gsfAux q acc = acc ++ (postOrder q).map (fun r => (r.palias, r.files))) :
    ∀ acc : List (String × List String),
      (∀ a ∈ (dfsPreList ps).map Project.palias, lookupBy acc a = none) →
      ((dfsPreList ps).map Project.palias).Nodup →
      gsfList ps acc = acc ++ (postOrderList ps).map (fun r => (r.palias, r.files)) := by
  induction ps with
  | nil =>
    intro acc _ _
    simp [gsfList, postOrderList]
  | cons p ps ih =>
    intro acc hfresh hnodup
    have hmapsplit : (dfsPreList (p :: ps)).map Project.palias
        = (p.dfsPre).map Project.palias ++ (dfsPreList ps).map Project.palias := by
      show (Project.dfsPre p ++ dfsPreList ps).map Project.palias = _
      rw [List.map_append]
    rw [hmapsplit] at hfresh hnodup
    rcases List.nodup_append.mp hnodup with ⟨hn1, hn2, hdisj⟩
    have hfresh1 : ∀ a ∈ (p.dfsPre).map Project.palias, lookupBy acc a = none :=
      fun a ha => hfresh a (by simp [ha])
    have hfresh2 : ∀ a ∈ (dfsPreList ps).map Project.palias, lookupBy acc a = none :=
      fun a ha => hfresh a (by simp [ha])
    have hstep := IH p (by simp) acc hfresh1 hn1
    show gsfList ps (gsfAux p acc) = _
    rw [hstep]
    have hkeys : ((postOrder p).map (fun r => (r.palias, r.files))).map Prod.fst
        = (postOrder p).map Project.palias := by
      rw [List.map_map]
      rfl
    have hfresh3 : ∀ a ∈ (dfsPreList ps).map Project.palias,
        lookupBy (acc ++ (postOrder p).map (fun r => (r.palias, r.files))) a = none := by
      intro a ha
      refine lookupBy_append_none _ _ _ (hfresh2 a ha) ?_
      rw [lookupBy_none_iff, hkeys]
      intro hmem
      have hmem2 : a ∈ (p.dfsPre).map Project.palias :=
        ((postOrder_perm_dfsPre p).map Project.palias).mem_iff.mp hmem
      exact hdisj hmem2 ha
    rw [ih (fun q hq => IH q (by simp [hq])) _ hfresh3 hn2]
    show _ = acc ++ (postOrder p ++ postOrderList ps).map (fun r => (r.palias, r.files))
    rw [List.map_append, List.append_assoc]

/-- Under tree-wide alias uniqueness, `_get_subproject_files` records every
reachable project's file list exactly once, keyed by its alias, in
post-order. -/
theorem gsfAux_eq : ∀ p : Project, ∀ acc : List (String × List String),
    (∀ a ∈ (p.dfsPre).map Project.palias, lookupBy acc a = none) →
    ((p.dfsPre).map Project.palias).Nodup →
    gsfAux p acc = acc ++ (postOrder p).map (fun r => (r.palias, r.files)) := by
  refine Project.strongInd _ ?_
  intro p IH acc hfresh hnodup
  match p with
  | .mk r b pa subs pkgs rules =>
    have hpre : Project.dfsPre (.mk r b pa subs pkgs rules)
        = .mk r b pa subs pkgs rules :: dfsPreList subs := rfl
    rw [hpre, List.map_cons] at hfresh hnodup
    rcases List.nodup_cons.mp hnodup with ⟨hpa_notin, hn2⟩
    have hfresh2 : ∀ a ∈ (dfsPreList subs).map Project.palias, lookupBy acc a = none :=
      fun a ha => hfresh a (by simp [ha])
    have hlist := gsfList_eq subs (fun q hq => IH q hq) acc hfresh2 hn2
    show (let acc2 := gsfList subs acc
      if (lookupBy acc2 (Project.palias (.mk r b pa subs pkgs rules))).isSome then acc2
      else acc2 ++ [(Project.palias (.mk r b pa subs pkgs rules),
        Project.files (.mk r b pa subs pkgs rules))]) = _
    rw [hlist]
    have hkeys : ((postOrderList subs).map (fun r => (r.palias, r.files))).map Prod.fst
        = (postOrderList subs).map Project.palias := by
      rw [List.map_map]
      rfl
    have hnone : lookupBy (acc ++ (postOrderList subs).map (fun r => (r.palias, r.files)))
        (Project.palias (.mk r b pa subs pkgs rules)) = none := by
      refine lookupBy_append_none _ _ _ (hfresh _ (by simp [Project.palias])) ?_
      rw [lookupBy_none_iff, hkeys]
      intro hmem
      have hmem2 : Project.palias (.mk r b pa subs pkgs rules)
          ∈ (dfsPreList subs).map Project.palias :=
        ((postOrderList_perm subs
          (fun q _ => postOrder_perm_dfsPre q)).map Project.palias).mem_iff.mp hmem
      exact hpa_notin (by simpa [Project.palias] using hmem2)
    simp only [hnone, Option.isSome_none, Bool.false_eq_true, if_false]
    show _ ++ _ ++ _ = _ ++ (postOrderList subs ++ [Project.mk r b pa subs pkgs rules]).map
      (fun r => (r.palias, r.files))
    rw [List.map_append, List.append_assoc]
    rfl

/-! ## Claim theorems -/

theorem conflictFree_of_fold_ok (ds : List NinjaDict) (reg2 : Registry)
    (flat2 : List NinjaDict)
    (h : ds.foldlM registerDict (([] : Registry), ([] : List NinjaDict))
      = .ok (reg2, flat2)) : conflictFree ds := by
  intro d1 h1 d2 h2 hk
  rcases collect_go_ok ds [] [] reg2 flat2 h with ⟨-, b2, -⟩
  have e1 := b2 d1 h1
  have e2 := b2 d2 h2
  rw [hk] at e1
  have := e1.symm.trans e2
  injection this

/-- C1 (amended): build steps are keyed by the set of their output paths.
The collection loop succeeds exactly when any two observed dicts sharing an
output-key are field-for-field identical; on success the collected list
keeps exactly the first dict registered under each key (later identical
dicts are dropped, each key is emitted once, and the registry maps each
observed dict's key to it); on failure the error is the conflict message of
the shared output-key, attained by two different observed dicts with that
key — the message names the shared outputs but not the conflicting
definitions.  The last two conjuncts lift success/failure to `pass1`, the
collection over every concrete target's product map. -/
theorem C1_output_key_dedup (ds : List NinjaDict) (ts : List Target) :
    ((∃ res, collectDicts [] ds = .ok res) ↔ conflictFree ds) ∧
    (∀ reg2 flat2, collectDicts [] ds = .ok (reg2, flat2) →
      flat2 = dedupByKey ds [] ∧ (flat2.map outputKey).Nodup ∧
      ∀ d ∈ ds, lookupBy reg2 (outputKey d) = some d) ∧
    (∀ msg, collectDicts [] ds = .error msg →
      ∃ k d1 d2, msg = conflictMsg k ∧ d1 ∈ ds ∧ d2 ∈ ds ∧
        outputKey d1 = k ∧ outputKey d2 = k ∧ d1 ≠ d2) ∧
    ((∃ u, pass1 ts = .ok u) ↔ conflictFree (allDicts ts)) ∧
    (∀ msg, pass1 ts = .error msg →
      ∃ k d1 d2, msg = conflictMsg k ∧ d1 ∈ allDicts ts ∧ d2 ∈ allDicts ts ∧
        outputKey d1 = k ∧ outputKey d2 = k ∧ d1 ≠ d2) := by
  have hreg_empty : ∀ k : List String, lookupBy ([] : Registry) k = none := by
    intro k
    simp [lookupBy]
  have hwf_empty : RegWF [] := by
    intro kv hm
    cases hm
  have herr_char : ∀ (ds0 : List NinjaDict) msg,
      ds0.foldlM registerDict (([] : Registry), ([] : List NinjaDict)) = .error msg →
      ∃ k d1 d2, msg = conflictMsg k ∧ d1 ∈ ds0 ∧ d2 ∈ ds0 ∧
        outputKey d1 = k ∧ outputKey d2 = k ∧ d1 ≠ d2 := by
    intro ds0 msg h
    rcases collect_go_error ds0 [] [] msg hwf_empty h
      with ⟨k, d1, d2, h1, h2, h3, h4, h5, h6⟩
    rcases h6 with h6 | h6
    · rw [hreg_empty k] at h6
      cases h6
    · exact ⟨k, d1, d2, h1, h6, h2, h5, h3, h4⟩
  refine ⟨⟨?_, ?_⟩, ?_, ?_, ⟨?_, ?_⟩, ?_⟩
  · rintro ⟨⟨reg2, flat2⟩, h⟩
    exact conflictFree_of_fold_ok ds reg2 flat2 h
  · intro hcf
    exact collect_go_total ds [] []
      (fun k d0 hk => absurd hk (by simp [hreg_empty k])) hcf
  · intro reg2 flat2 h
    rcases collect_go_ok ds [] [] reg2 flat2 h with ⟨-, b2, b3⟩
    simp only [List.map_nil, List.nil_append] at b3
    refine ⟨b3, ?_, b2⟩
    rw [b3]
    exact (dedupByKey_keys ds []).1
  · exact herr_char ds
  · rintro ⟨u, hu⟩
    unfold pass1 at hu
    cases hin : (ts.foldlM (fun st (t : Target) => t.evalEntries.foldlM processEntry st)
        (([], []) : Registry × UPBT)) with
    | error e => rw [hin] at hu; cases hu
    | ok st =>
      rcases (targets_bridge ts (([], []) : Registry × UPBT)).1 st hin with ⟨flat, hfold⟩
      exact conflictFree_of_fold_ok (allDicts ts) st.1 flat hfold
  · intro hcf
    cases hp : pass1 ts with
    | ok u => exact ⟨u, rfl⟩
    | error msg =>
      exfalso
      unfold pass1 at hp
      cases hin : (ts.foldlM (fun st (t : Target) => t.evalEntries.foldlM processEntry st)
          (([], []) : Registry × UPBT)) with
      | ok st => rw [hin] at hp; cases hp
      | error e =>
        rw [hin] at hp
        have he : e = msg := by cases hp; rfl
        subst he
        have hfold := (targets_bridge ts (([], []) : Registry × UPBT)).2 e hin
        rcases collect_go_total (allDicts ts) [] []
            (fun k d0 hk => absurd hk (by simp [hreg_empty k])) hcf with ⟨res, hres⟩
        rw [hres] at hfold
        cases hfold
  · intro msg h
    unfold pass1 at h
    cases hin : (ts.foldlM (fun st (t : Target) => t.evalEntries.foldlM processEntry st)
        (([], []) : Registry × UPBT)) with
    | ok st => rw [hin] at h; cases h
    | error e =>
      rw [hin] at h
      have he : e = msg := by cases h; rfl
      subst he
      exact herr_char (allDicts ts) e ((targets_bridge ts _).2 e hin)

/-- C1 counterexample: two generation runs whose graphs differ only in the
second, conflicting build step fail with the *same* error message — the
message is a function of the shared output-key alone, so the conflict error
does not name the two conflicting definitions, refuting the claim that it
names both. -/
theorem C1_conflict_message_counterexample :
    (emitRun (twoStepProj cxxDict)).2 = some (conflictMsg ["foo.o"]) ∧
    (emitRun (twoStepProj rustDict)).2 = some (conflictMsg ["foo.o"]) ∧
    conflictMsg ["foo.o"] = "Conflicting rules produce outputs foo.o" ∧
    cxxDict ≠ rustDict ∧ ccDict ≠ cxxDict ∧ ccDict ≠ rustDict ∧
    outputKey ccDict = ["foo.o"] ∧ outputKey cxxDict = ["foo.o"] ∧
    outputKey rustDict = ["foo.o"] :=
  ⟨rfl, rfl, rfl, by decide, by decide, by decide, by decide, by decide, by decide⟩

/-- The first build statement any run emits is the self-regeneration step:
it is written in the prelude, before the rule section and the product
groups, whether or not the product passes succeed. -/
theorem firstBuild_emitRun (p : Project) :
    firstBuild (emitRun p).1 = some (.build (regenBuild p)) := by
  have hpre : (preludeEvents p).find? isBuildEvent = some (.build (regenBuild p)) := rfl
  cases hp : pass1 p.concrete_targets with
  | error e =>
    simp only [emitRun, hp, firstBuild]
    rw [List.find?_append, hpre]
    rfl
  | ok u =>
    simp only [emitRun, hp, firstBuild]
    rw [List.find?_append, List.find?_append, hpre]
    rfl

/-- C3: a successful run emits, in order, the prelude (whose only build
statement — the first of the whole script — is the self-regeneration
step), then every registered rule sorted by rule name, then the product
groups sorted by owning target identifier with each target's digests
sorted within it; a target appearing under exactly one digest is annotated
with its identifier alone, one appearing under several digests gets an
identifier-and-digest annotation per group. -/
theorem C3_emission_order (p : Project) (u : UPBT)
    (h : pass1 p.concrete_targets = .ok u) :
    (emitRun p).1 = preludeEvents p ++ rulesEvents p ++ productsEvents u ∧
    (emitRun p).2 = none ∧
    firstBuild (emitRun p).1 = some (.build (regenBuild p)) ∧
    rulesEvents p = (List.insertionSort fstle p.ninja_rules).flatMap
      (fun kv => [.rule kv.1 kv.2, .newline]) ∧
    (List.insertionSort fstle p.ninja_rules).Perm p.ninja_rules ∧
    (List.insertionSort fstle p.ninja_rules).Sorted fstle ∧
    productsEvents u
      = (List.insertionSort fstle u).flatMap (fun kv => groupEvents kv.1 kv.2) ∧
    (List.insertionSort fstle u).Perm u ∧
    (List.insertionSort fstle u).Sorted fstle ∧
    (∀ (ti : String) (emap : List (String × List NinjaDict)),
      (List.insertionSort fstle emap).Perm emap ∧
      (List.insertionSort fstle emap).Sorted fstle ∧
      (emap.length = 1 →
        groupEvents ti emap = .comment ("---- target " ++ ti)
          :: (List.insertionSort fstle emap).flatMap
              (fun kv => kv.2.map .build ++ [.newline])) ∧
      (1 < emap.length →
        groupEvents ti emap = (List.insertionSort fstle emap).flatMap
          (fun kv => .comment ("---- target " ++ ti ++ " @ " ++ kv.1)
            :: (kv.2.map .build ++ [.newline])))) := by
  refine ⟨?_, ?_, firstBuild_emitRun p, rfl,
    List.perm_insertionSort fstle p.ninja_rules,
    List.sorted_insertionSort fstle p.ninja_rules, rfl,
    List.perm_insertionSort fstle u, List.sorted_insertionSort fstle u, ?_⟩
  · simp [emitRun, h]
  · simp [emitRun, h]
  · intro ti emap
    refine ⟨List.perm_insertionSort fstle emap, List.sorted_insertionSort fstle emap,
      ?_, ?_⟩
    · intro h1
      have h2 : ¬ (1 < emap.length) := by omega
      simp [groupEvents, h1, h2]
    · intro h2
      have h1 : ¬ (emap.length = 1) := by omega
      simp [groupEvents, h1, h2]

/-- C7: the first build statement emitted is the self-regeneration step,
whose implicit-input list is `_get_project_files`; under tree-wide alias
uniqueness (which the loader guarantees) that list holds exactly the build
files — each project's `BUILD.conf` and each of its packages' `BUILD`
files — of every project reachable from the root, sorted. -/
theorem C7_regeneration_step (p : Project)
    (hal : ((p.dfsPre).map Project.palias).Nodup) :
    firstBuild (emitRun p).1 = some (.build (regenBuild p)) ∧
    (regenBuild p).outputs = ["build.ninja"] ∧
    (regenBuild p).rule = "cobble_generate_ninja" ∧
    (regenBuild p).implicit = _get_project_files p ∧
    (_get_project_files p).Perm ((p.dfsPre).flatMap Project.files) ∧
    List.Sorted strle (_get_project_files p) := by
  have hg := gsfAux_eq p [] (fun a _ => by simp [lookupBy]) hal
  simp only [List.nil_append] at hg
  refine ⟨firstBuild_emitRun p, rfl, rfl, rfl, ?_, ?_⟩
  · show (List.insertionSort strle ((gsfAux p []).flatMap Prod.snd)).Perm _
    rw [hg]
    have hflat : ((postOrder p).map (fun r => (r.palias, r.files))).flatMap Prod.snd
        = (postOrder p).flatMap Project.files := by
      rw [List.flatMap_map]
    rw [hflat]
    exact (List.perm_insertionSort strle _).trans
      ((postOrder_perm_dfsPre p).flatMap_right Project.files)
  · exact List.sorted_insertionSort strle _

/-- Witness for C7 at the concrete sample tree (aliases `""` and `sub`,
pairwise distinct). -/
theorem C7_regeneration_step_witness :
    (_get_project_files rootProj).Perm
      ((Project.dfsPre rootProj).flatMap Project.files) :=
  (C7_regeneration_step rootProj (by decide)).2.2.2.2.1

/-- Witness for C3 at a concrete project whose two concrete targets
produce the same build step, so the first pass succeeds after
deduplicating. -/
theorem C3_emission_order_witness :
    (emitRun (twoStepProj ccDict)).2 = none :=
  (C3_emission_order (twoStepProj ccDict)
    [("//p:t1", [("d0", [ccDict])])] rfl).2.1

/-- C4: an absolute identifier's portion after `//` is split on `:`.  With
zero colons the target name defaults to the last path component of the
package path; with exactly one colon package path and target name are
explicit; with more than one colon resolution fails with the malformed
too-many-colons error; in particular `//a:b:c` fails for every project. -/
theorem C4_colon_split (p : Project) (pat a b : String)
    (hsplit : pySplitSS ("//" ++ pat) = ["", pat]) :
    (pyCount ':' pat = 0 →
      p.find_target ("//" ++ pat) = p.lookupTarget ("//" ++ pat) pat (basename pat)) ∧
    (pyCount ':' pat = 1 → pySplitChar ':' pat = [a, b] →
      p.find_target ("//" ++ pat) = p.lookupTarget ("//" ++ pat) a b) ∧
    (2 ≤ pyCount ':' pat →
      p.find_target ("//" ++ pat)
        = .error ("Too many colons in identifier: " ++ pyQuote ("//" ++ pat))) ∧
    p.find_target "//a:b:c"
      = .error ("Too many colons in identifier: " ++ pyQuote "//a:b:c") := by
  have hc : containsSS ("//" ++ pat) = true := by
    simp [containsSS, hsplit]
  refine ⟨?_, ?_, ?_, rfl⟩
  · intro h0
    simp [Project.find_target, hc, hsplit, Project.resolveLocal, h0]
  · intro h1 hab
    simp [Project.find_target, hc, hsplit, Project.resolveLocal, h1, hab]
  · intro h2
    have hne0 : ¬ pyCount ':' pat = 0 := by omega
    have hne1 : ¬ pyCount ':' pat = 1 := by omega
    simp [Project.find_target, hc, hsplit, Project.resolveLocal, hne0, hne1]

/-- Witness for C4 at concrete inputs: `//a/b:foo` (one colon) resolves via
the explicit package path `a/b` and target name `foo`. -/
theorem C4_colon_split_witness :
    rootProj.find_target "//a/b:foo" = rootProj.lookupTarget "//a/b:foo" "a/b" "foo" :=
  (C4_colon_split rootProj "a/b:foo" "a/b" "foo" rfl).2.1 rfl rfl

/-- C5: a package-relative identifier (leading `:`) is first rewritten to
the absolute identifier built from the owning project's alias, `//`, the
package's relative path and the identifier, and that absolute identifier is
then resolved; `Package.make_absolute` performs the same rewrite.  In the
root project's package `a/b`, `:foo` resolves exactly as `//a/b:foo`,
namely to the target `foo`. -/
theorem C5_package_relative (proj : Project) (pkg : Package) (ident : String)
    (h : startsWithChar ':' ident = true) :
    Package.find_target proj pkg ident
      = proj.find_target (proj.palias ++ "//" ++ pkg.relpath ++ ident) ∧
    Package.make_absolute proj pkg ident
      = .ok (proj.palias ++ "//" ++ pkg.relpath ++ ident) ∧
    Package.find_target rootProj pkgAB ":foo" = rootProj.find_target "//a/b:foo" ∧
    rootProj.find_target "//a/b:foo" = .ok fooTarget := by
  refine ⟨?_, ?_, rfl, rfl⟩
  · simp [Package.find_target, h]
  · simp [Package.make_absolute, h]

/-- Witness for C5 at concrete inputs: `:foo` in package `a/b` of the root
project goes through the absolute identifier `//a/b:foo`. -/
theorem C5_package_relative_witness :
    Package.find_target rootProj pkgAB ":foo"
      = rootProj.find_target (rootProj.palias ++ "//" ++ pkgAB.relpath ++ ":foo") :=
  (C5_package_relative rootProj pkgAB ":foo" rfl).1

/-- C9 counterexample: resolving `//a:b` in a project whose alias is
`proj`, where package `a` exists but holds no target `b`, fails with
`Target b not found in package proj//a` — a message in which the original
identifier `//a:b` does not occur, so the missing-target error does not
name the original identifier. -/
theorem C9_counterexample :
    aliasProj.find_target "//a:b" = .error "Target b not found in package proj//a" ∧
    strContains "Target b not found in package proj//a" "//a:b" = false :=
  ⟨rfl, by decide⟩

/-- C9 (amended): both lookups fail fatally with "not found" errors, but
only the unknown-package error names the identifier being resolved; the
missing-target error instead names the target name and the package as
`alias//path`.  The closed conjuncts exercise both branches. -/
theorem C9_not_found_errors (p : Project) (ident pkg_path target_name : String) (pkg : Package) :
    (lookupBy p.packages pkg_path = none →
      p.lookupTarget ident pkg_path target_name
        = .error ("Reference to unknown package: " ++ pyQuote ident)) ∧
    (lookupBy p.packages pkg_path = some pkg →
      lookupBy pkg.targets target_name = none →
      p.lookupTarget ident pkg_path target_name
        = .error ("Target " ++ target_name ++ " not found in package "
            ++ p.palias ++ "//" ++ pkg_path)) ∧
    aliasProj.find_target "//nope:x"
      = .error ("Reference to unknown package: " ++ pyQuote "//nope:x") ∧
    aliasProj.find_target "//a:b" = .error "Target b not found in package proj//a" := by
  refine ⟨?_, ?_, rfl, rfl⟩
  · intro h
    simp [Project.lookupTarget, h]
  · intro h1 h2
    simp [Project.lookupTarget, h1, h2]

/-- C6: dispatch on the alias of `alias//rest`.  A non-empty alias is
looked up as the first match of a depth-first search of the project tree
(conjunct 1; the project itself, carrying its own alias, is the head of
that order, so its own alias resolves to itself); an empty alias (conjunct
3) or the project's own alias (conjunct 4) resolves in the project itself;
any other alias recurses, alias stripped, into the subproject found
(conjunct 5), and resolution fails when no project of the tree bears the
alias (conjunct 6). -/
theorem C6_alias_dispatch (p q : Project) (al pat : String)
    (hal : al ≠ "")
    (hsplit : pySplitSS (al ++ "//" ++ pat) = [al, pat])
    (hsplit2 : pySplitSS ("//" ++ pat) = ["", pat]) :
    (p.find_project al = p.dfsPre.find? (fun r => r.palias == al)) ∧
    (p.find_project "" = some p) ∧
    (p.find_target ("//" ++ pat) = p.resolveLocal ("//" ++ pat) pat) ∧
    (al = p.palias → p.find_target (al ++ "//" ++ pat) = p.resolveLocal ("//" ++ pat) pat) ∧
    (p.dfsPre.find? (fun r => r.palias == al) = some q →
      p.find_target (al ++ "//" ++ pat) = q.resolveLocal ("//" ++ pat) pat) ∧
    (p.dfsPre.find? (fun r => r.palias == al) = none →
      p.find_target (al ++ "//" ++ pat) = .error ("No project with alias " ++ pyQuote al)) := by
  have hdfs := find_project_dfs al hal p
  have hc : containsSS (al ++ "//" ++ pat) = true := by
    simp [containsSS, hsplit]
  have hc2 : containsSS ("//" ++ pat) = true := by
    simp [containsSS, hsplit2]
  refine ⟨hdfs, ?_, ?_, ?_, ?_, ?_⟩
  · cases p with
    | mk r b a subs pkgs rules => simp [Project.find_project]
  · simp [Project.find_target, hc2, hsplit2]
  · intro hown
    have hfp : p.find_project al = some p := by
      cases p with
      | mk r b a subs pkgs rules =>
        simp only [Project.palias] at hown
        simp [Project.find_project, hown]
    simp [Project.find_target, hc, hsplit, hal, hfp, hsplit2]
  · intro hq
    have hfp : p.find_project al = some q := hdfs.trans hq
    simp [Project.find_target, hc, hsplit, hal, hfp, hsplit2]
  · intro hq
    have hfp : p.find_project al = none := hdfs.trans hq
    simp [Project.find_target, hc, hsplit, hal, hfp]

/-- C10: from construction onward, every reachable project state keeps the
`cobble_symlink_product` rule registered with its fixed definition
(conjunct 1, with conjunct 5 evaluating it at a fresh project);
`add_ninja_rules` preserves every existing registration (conjunct 2), is a
no-op when every added rule duplicates an identical registration (conjunct
3), and fails when an added rule redefines a registered name differently
(conjunct 4) — so no registered rule is ever replaced. -/
theorem C10_rule_registry_invariant :
    (∀ p : Project, Built p →
      lookupBy p.ninja_rules "cobble_symlink_product" = some symlinkRule) ∧
    (∀ (p : Project) (new : List (String × NinjaRule)) (p2 : Project),
      p.add_ninja_rules new = .ok p2 →
      ∀ k v, lookupBy p.ninja_rules k = some v → lookupBy p2.ninja_rules k = some v) ∧
    (∀ (p : Project) (new : List (String × NinjaRule)),
      (∀ kv ∈ new, lookupBy p.ninja_rules kv.1 = some kv.2) →
      p.add_ninja_rules new = .ok p) ∧
    (∀ (p : Project) (new : List (String × NinjaRule)) (k : String) (v w : NinjaRule),
      (k, v) ∈ new → lookupBy p.ninja_rules k = some w → v ≠ w →
      ∃ msg, p.add_ninja_rules new = .error msg) ∧
    lookupBy (Project.init "/r" "/b" "x").ninja_rules "cobble_symlink_product"
      = some symlinkRule := by
  refine ⟨built_symlink_registered, ?_, ?_, ?_, rfl⟩
  · intro p new p2 hok k v hv
    cases p with
    | mk r b a subs pkgs rules =>
      simp only [Project.add_ninja_rules] at hok
      cases hf : new.foldlM addNinjaRule rules with
      | error e => rw [hf] at hok; cases hok
      | ok rules2 =>
        rw [hf] at hok
        cases hok
        exact foldl_addNinjaRule_preserves new rules rules2 hf k v hv
  · intro p new hall
    cases p with
    | mk r b a subs pkgs rules =>
      simp only [Project.add_ninja_rules]
      rw [foldl_addNinjaRule_noop new rules hall]
      rfl
  · intro p new k v w hm hl hne
    cases p with
    | mk r b a subs pkgs rules =>
      rcases foldl_addNinjaRule_conflict new rules k v w hm hl hne with ⟨msg, hmsg⟩
      refine ⟨msg, ?_⟩
      simp only [Project.add_ninja_rules]
      rw [hmsg]
      rfl

/-- Witness for C6 at concrete inputs: `sub//x:y` resolves through the
subproject registered under alias `sub`, with the alias stripped. -/
theorem C6_alias_dispatch_witness :
    rootProj.find_target "sub//x:y" = subProj.resolveLocal "//x:y" "x:y" :=
  (C6_alias_dispatch rootProj subProj "sub" "x:y" (by decide) rfl rfl).2.2.2.2.1 rfl

/-- C2: the generated script is written to the temporary path and renamed
onto the final path only after every write has succeeded.  A successful
run installs the complete event sequence as the final file and leaves no
temporary file; a failed run leaves the previous final file exactly as it
was — no partial content ever becomes the final file — and the temporary
file, never renamed, still holds the partial write (it is discarded in the
sense that its content is never installed). -/
theorem C2_atomic_write (p : Project) (d : Disk) :
    ((emitRun p).2 = none ∧
      write_ninja_files p d = { final := some (emitRun p).1, tmp := none }) ∨
    ((emitRun p).2 ≠ none ∧ (write_ninja_files p d).final = d.final ∧
      (write_ninja_files p d).tmp = some (emitRun p).1) := by
  rcases he : emitRun p with ⟨evts, err⟩
  cases err with
  | none =>
    left
    simp [write_ninja_files, he]
  | some e =>
    right
    simp [write_ninja_files, he]

/-- C8: generation is deterministic — the emitter is a pure function of
the project graph, so two runs over the same unchanged graph emit
identical event sequences and leave identical build directories.  (The
embedding required no hidden inputs — clock, hash seed, directory order —
to model the generator: Python dicts iterate in insertion order and every
reordering the code performs is an explicit sort.) -/
theorem C8_deterministic (p q : Project) (h : p = q) :
    emitRun p = emitRun q ∧
    ∀ d : Disk, write_ninja_files p d = write_ninja_files q d := by
  subst h
  exact ⟨rfl, fun d => rfl⟩

/-- Witness for C8: two runs over the sample project. -/
theorem C8_deterministic_witness :
    emitRun rootProj = emitRun rootProj ∧
    ∀ d : Disk, write_ninja_files rootProj d = write_ninja_files rootProj d :=
  C8_deterministic rootProj rootProj rfl

end Cobble
